import Mathlib

/-!
Shallow embedding of the feature-importance aggregation and statistics code of
`StatsJobMC.py` (AutoMLPipe-MC, phase 6).  Numeric values are modelled as
rationals; Python lists become Lean lists; the in-place list mutations of the
source are modelled by explicit state passing.  Each definition carries a
reference to the source lines it translates.
-/

namespace StatsJobMC

/-- Source lines 174-177: the fold's test-set header with the instance-ID
column (only when `instance_label != 'None'`) and the class-label column
removed.  Python `list.remove` drops the first occurrence; it raises when the
element is absent, a case none of the analysed runs reach (`List.erase` is a
no-op there). -/
def stripHeaders (headers : List String) (instance_label class_label : String) :
    List String :=
  (if instance_label ≠ "None" then headers.erase instance_label else headers).erase
    class_label

/-- Source lines 172-186: the loop body run for each CV fold.  It walks
`original_headers` (the remaining argument) keeping a running position `j`,
builds `tempList` (the reconciled per-fold FI vector) and accumulates into
`FI_ave` (`ave`): a feature present in the fold's stripped header contributes
`fi[headers.index(each)]`, an absent feature contributes `0`.  The returned
pair is (`FI_ave` after the loop, `tempList`). -/
def reconLoop (headers : List String) (fi : List ℚ) (ave : List ℚ) (j : Nat) :
    List String → List ℚ × List ℚ
  | [] => (ave, [])
  | each :: rest =>
    if each ∈ headers then
      let v := fi.getD (headers.indexOf each) 0
      let r := reconLoop headers fi (ave.set j (ave.getD j 0 + v)) (j + 1) rest
      (r.1, v :: r.2)
    else
      let r := reconLoop headers fi ave (j + 1) rest
      (r.1, (0 : ℚ) :: r.2)

/-- Source lines 172-187: the reconciled (zero-filled, full-length) FI vector
`tempList` for one fold. -/
def reconcileFI (original_headers headers : List String) (fi : List ℚ) : List ℚ :=
  (reconLoop headers fi (List.replicate original_headers.length 0) 0 original_headers).2

/-- One CV fold's data as read by `primaryStats`: the raw test-CSV header
(instance and class columns still present) and the pickled fold-local FI
vector `fi`. -/
structure FoldData where
  rawHeaders : List String
  fi : List ℚ

/-- Source lines 141-187 restricted to feature importance: `FI_all`, the list
of reconciled per-fold FI vectors in fold order. -/
def FI_all (original_headers : List String) (instance_label class_label : String)
    (folds : List FoldData) : List (List ℚ) :=
  folds.map fun f =>
    reconcileFI original_headers (stripHeaders f.rawHeaders instance_label class_label)
      f.fi

/-- Source lines 137 and 178-186: the `FI_ave` accumulator after all folds,
before averaging (it starts as `[0] * len(original_headers)` and each fold adds
its reconciled contributions in place). -/
def FI_aveSums (original_headers : List String) (instance_label class_label : String)
    (folds : List FoldData) : List ℚ :=
  folds.foldl
    (fun ave f =>
      (reconLoop (stripHeaders f.rawHeaders instance_label class_label) f.fi ave 0
        original_headers).1)
    (List.replicate original_headers.length 0)

/-- Source lines 203-205: `FI_ave[i] = FI_ave[i] / float(cv_partitions)`, where
the loop of line 141 ran over exactly `folds.length = cv_partitions` folds. -/
def FI_ave (original_headers : List String) (instance_label class_label : String)
    (folds : List FoldData) : List ℚ :=
  (FI_aveSums original_headers instance_label class_label folds).map
    (· / (folds.length : ℚ))

/-- Source lines 154-157: `num_labeled`, the sum over `classNum` of
`conf[classNum][0]` (the first column of the confusion matrix). -/
def num_labeled (conf : List (List ℚ)) : ℚ :=
  ((List.range conf.length).map fun classNum => (conf.getD classNum []).getD 0 0).sum

/-- Source lines 158-162: the derived `agg_avg_prec` value: each diagonal entry
divided by `num_labeled`, summed, then divided by `len(conf)`. -/
def agg_avg_prec (conf : List (List ℚ)) : ℚ :=
  (((List.range conf.length).map fun classNum =>
      (conf.getD classNum []).getD classNum 0 / num_labeled conf).sum) /
    (conf.length : ℚ)

/-- Sum of the diagonal of the confusion matrix (helper used to restate
`agg_avg_prec`). -/
def diagSum (conf : List (List ℚ)) : ℚ :=
  ((List.range conf.length).map fun classNum =>
    (conf.getD classNum []).getD classNum 0).sum

/-- Modelled from the spec: the claim's formula for aggregate average
precision, `sum_k(C[k][k] / total_labeled_k) / num_classes`, where
`total_labeled_k` is the number of instances labeled as class `k`, i.e. the sum
of row `k` of the confusion matrix.  This definition follows the claim's words
and exists only to be compared against `agg_avg_prec`, which follows the
source. -/
def claim_agg_avg_prec (conf : List (List ℚ)) : ℚ :=
  (((List.range conf.length).map fun k =>
      (conf.getD k []).getD k 0 / (conf.getD k []).sum).sum) /
    (conf.length : ℚ)

/-- A Python value as it flows through the Kruskal-Wallis summary code: either
a number (the normal statistic / p-value case) or a raw list of per-fold metric
samples (the `except` fallback of line 320 stores `tempArray[0]`, a list). -/
inductive PyVal where
  | num (q : ℚ)
  | list (l : List ℚ)
deriving DecidableEq

/-- Python `round(x, 6)` restricted to what lines 321-322 need: it yields a
number for numeric input and raises `TypeError` for a list (lists do not
implement `__round__`).  Ties of the float round-half-to-even rule are
irrelevant to every analysed run, so the rational `round` stands in. -/
def pyRound6 (v : PyVal) : Except String ℚ :=
  match v with
  | PyVal.num q => Except.ok (((round (q * 1000000) : ℤ) : ℚ) / 1000000)
  | PyVal.list _ => Except.error "TypeError: type list doesn't define __round__ method"

/-- Modelled from the spec: `scipy.stats.kruskal` is an out-of-repository
commodity call ("input two (or more) numeric samples, output (statistic,
p-value)") whose failure mode matters here: it raises on degenerate input such
as identical distributions ("All numbers are identical in kruskal").  Only the
failure path is exercised by the claims; the non-degenerate statistic is
abstracted as an arbitrary fixed pair. -/
def kruskalCall (samples : List (List ℚ)) : Except String (ℚ × ℚ) :=
  let allVals := samples.flatten
  if allVals.isEmpty then Except.ok (0, 0)
  else if allVals.all fun x => decide (x = allVals.headD 0) then
    Except.error "ValueError: All numbers are identical in kruskal"
  else Except.ok (0, 0)

/-- Source lines 313-326: the per-metric body of `kruskalWallis`.  The `try`
block calls `stats.kruskal(*tempArray)`; on any exception the fallback
`result = [tempArray[0], 1]` is used; then the statistic and p-value are
formatted with `str(round(_, 6))` and the significance flag is set from the
raw p-value.  `round` on the fallback statistic (a list) raises `TypeError`,
which no handler catches, so the whole row computation is `Except`-valued. -/
def kruskalRow (tempArray : List (List ℚ)) (sig_cutoff : ℚ) :
    Except String (ℚ × ℚ × String) :=
  let result : PyVal × ℚ :=
    match kruskalCall tempArray with
    | Except.ok sp => (PyVal.num sp.1, sp.2)
    | Except.error _ => (PyVal.list (tempArray.headD []), 1)
  match pyRound6 result.1 with
  | Except.error e => Except.error e
  | Except.ok stat =>
    match pyRound6 (PyVal.num result.2) with
    | Except.error e => Except.error e
    | Except.ok pval =>
      Except.ok (stat, pval, if result.2 < sig_cutoff then "*" else "")

/-- Python `max` over a list of numbers (source line 420 evaluates
`max(each)` only under `each[i] > 0`, so the list is never empty there; the
empty case is given an arbitrary default). -/
def pyMax (l : List ℚ) : ℚ :=
  match l with
  | [] => 0
  | h :: t => t.foldl max h

/-- Source lines 414-421: per-algorithm normalization of the FI averages.
Each entry at or below `0` becomes `0`; a positive entry is divided by the
vector's maximum. -/
def normalizeFI (each : List ℚ) : List ℚ :=
  each.map fun x => if x ≤ 0 then 0 else x / pyMax each

/-- Source lines 413-421: `fi_ave_norm_list`, the normalization applied to
every algorithm's FI-average vector. -/
def fi_ave_norm_list (fi_ave_list : List (List ℚ)) : List (List ℚ) :=
  fi_ave_list.map normalizeFI

/-- Source lines 424-429: the feature names whose FI average is strictly
positive for one algorithm, in the order they are encountered in
`all_feature_list`. -/
def algNonZeroList (all_feature_list : List String) (fiAve : List ℚ) : List String :=
  (List.range fiAve.length).filterMap fun i =>
    if 0 < fiAve.getD i 0 then some (all_feature_list.getD i "") else none

/-- Source lines 430-433: the non-zero union.  The first algorithm's list is
taken as-is; every further algorithm is folded in through
`list(set(acc) | set(next))`.  CPython enumerates a set of strings in an
unspecified, hash-randomized order, so that conversion is modelled by the
parameter `enum`, which stands for one possible enumeration of the union of
its two arguments (any duplicate-free list with exactly the union's members is
a behaviour the source admits). -/
def nonZeroUnion (enum : List String → List String → List String)
    (all_feature_list : List String) (fi_ave_list : List (List ℚ)) : List String :=
  match fi_ave_list.map (algNonZeroList all_feature_list) with
  | [] => []
  | l0 :: rest => rest.foldl (fun acc lj => enum acc lj) l0

/-- One admissible behaviour of `list(set(a) | set(b))`: enumerate the union
with the duplicates removed, in reverse discovery order.  Used to witness that
the set conversion need not preserve the order of its arguments. -/
def enumRev (a b : List String) : List String :=
  ((a ++ b).dedup).reverse

/-- Source lines 435-436: positions of the union's features inside
`all_feature_list`. -/
def nonZeroUnionIndexes (all_feature_list union : List String) : List Nat :=
  union.map fun i => all_feature_list.indexOf i

/-- Membership test of a Python dict whose insertion order matters, modelled
as an association list (`each in scoreSumDict`, line 460). -/
def hasKey : List (String × ℚ) → String → Bool
  | [], _ => false
  | p :: d, k => if p.1 = k then true else hasKey d k

/-- Value lookup in the association-list dict, defaulting to `0` for an absent
key (every lookup the source performs is on a present key). -/
def lookupD : List (String × ℚ) → String → ℚ
  | [], _ => 0
  | p :: d, k => if p.1 = k then p.2 else lookupD d k

/-- Source lines 460-463: `scoreSumDict[each] = score` on first sight of the
key (append, preserving insertion order) and `scoreSumDict[each] += score`
afterwards (update in place). -/
def dictAdd (d : List (String × ℚ)) (k : String) (v : ℚ) : List (String × ℚ) :=
  if hasKey d k then d.map fun p => if p.1 = k then (p.1, p.2 + v) else p
  else d ++ [(k, v)]

/-- Source lines 450-459: the performance-weighted score one algorithm `j`
contributes for the feature whose `all_feature_list` index is `fIdx`:
`score = fi_ave_norm_list[j][fIdx]`, `weight = ave_metric_list[j]`, clamp
`weight` to `0` when it is at most `0.5`, rescale a non-zero weight by
`(weight - 0.5) / 0.5`, and return `score * weight`. -/
def algScore (norms : List (List ℚ)) (aves : List ℚ) (fIdx : Nat) (j : Nat) : ℚ :=
  let score := (norms.getD j []).getD fIdx 0
  let weight := aves.getD j 0
  let weight := if weight ≤ 1 / 2 then 0 else weight
  let weight := if ¬weight = 0 then (weight - 1 / 2) / (1 / 2) else weight
  score * weight

/-- Source lines 448-464: one iteration of the outer loop of `selectForViz`
for the union feature `each` at running position `st.2`, updating the dict
`st.1` once per algorithm `j` and advancing the position. -/
def scoreStep (indexes : List Nat) (nAlgs : Nat) (norms : List (List ℚ))
    (aves : List ℚ) (st : List (String × ℚ) × Nat) (each : String) :
    List (String × ℚ) × Nat :=
  ((List.range nAlgs).foldl
      (fun d j => dictAdd d each (algScore norms aves (indexes.getD st.2 0) j))
      st.1,
    st.2 + 1)

/-- Source lines 445-464: the `scoreSumDict` built by the nested loops (outer
over the union features with running position `i`, inner over
`range(len(algorithms))`). -/
def scoreSumDict (union : List String) (indexes : List Nat) (nAlgs : Nat)
    (norms : List (List ℚ)) (aves : List ℚ) : List (String × ℚ) :=
  (union.foldl (scoreStep indexes nAlgs norms aves) ([], 0)).1

/-- Stable insertion of `a` into a list already sorted by strictly descending
`key`: `a` goes after every earlier element whose key is at least `key a`. -/
def insertDesc (key : String → ℚ) (a : String) : List String → List String
  | [] => [a]
  | b :: bs => if key b < key a then a :: b :: bs else b :: insertDesc key a bs

/-- Python `sorted(xs, key=key, reverse=True)`: a stable sort by descending
key; elements with equal keys keep their original relative order. -/
def pySortedDesc (key : String → ℚ) (l : List String) : List String :=
  l.foldl (fun acc a => insertDesc key a acc) []

/-- Source lines 439-470: `selectForViz`.  When the union is larger than
`top_results`, build `scoreSumDict`, sort its keys by decreasing stored score
(`sorted(scoreSumDict, key=..., reverse=True)` iterates the dict's keys in
insertion order and Python's sort is stable) and keep the first `top_results`;
otherwise return `non_zero_union_features` itself. -/
def selectForViz (top_results : Nat) (non_zero_union_features : List String)
    (non_zero_union_indexes : List Nat) (algorithms : List String)
    (ave_metric_list : List ℚ) (fi_ave_norm_list : List (List ℚ)) : List String :=
  if top_results < non_zero_union_features.length then
    let d := scoreSumDict non_zero_union_features non_zero_union_indexes
      algorithms.length fi_ave_norm_list ave_metric_list
    (pySortedDesc (fun x => lookupD d x) (d.map Prod.fst)).take top_results
  else non_zero_union_features

/-- Modelled from the spec (for comparison with the source-side
`scoreSumDict`): the claim's per-feature score, the sum over all algorithms of
the normalized FI value times the weight `w = 0` if the algorithm's mean
primary metric is at most `0.5`, else `(mean - 0.5) / 0.5`. -/
def claimScore (union : List String) (indexes : List Nat) (norms : List (List ℚ))
    (aves : List ℚ) (nAlgs : Nat) (f : String) : ℚ :=
  ((List.range nAlgs).map fun j =>
    (norms.getD j []).getD (indexes.getD (union.indexOf f) 0) 0 *
      (if aves.getD j 0 ≤ 1 / 2 then 0 else (aves.getD j 0 - 1 / 2) / (1 / 2))).sum

/-- Source lines 577-586: fractionation of one algorithm's vector.  Every
entry is divided by the vector's sum unless that sum is `0`, in which case the
entry becomes `0` (the division-by-zero guard). -/
def fracVec (each : List ℚ) : List ℚ :=
  each.map fun x => if each.sum = 0 then 0 else x / each.sum

/-- Source lines 577-586: `fracFI`, fractionation applied to every
algorithm. -/
def fracFI (top_fi_ave_norm_list : List (List ℚ)) : List (List ℚ) :=
  top_fi_ave_norm_list.map fracVec

/-- Source lines 593-595: the in-place clamping loop of `weightFI`
(`for i in range(len(ave_metric_list)): if ave_metric_list[i] <= .5:
ave_metric_list[i] = 0`), run over an explicit list of indexes. -/
def clampLoop (acc : List ℚ) : List Nat → List ℚ
  | [] => acc
  | i :: is => clampLoop (if acc.getD i 0 ≤ 1 / 2 then acc.set i 0 else acc) is

/-- Source lines 597-601: the weights built from the (already clamped) metric
list: `0` where the entry is `0`, otherwise `(entry - 0.5) / 0.5`. -/
def weightsOf (ave : List ℚ) : List ℚ :=
  (List.range ave.length).foldl
    (fun acc i =>
      if ave.getD i 0 = 0 then acc ++ [0]
      else acc ++ [(ave.getD i 0 - 1 / 2) / (1 / 2)])
    []

/-- Source lines 588-607: `weightFI`.  Python mutates the caller's
`ave_metric_list` in place; the state-passing model returns the post-call
state of that list as the third component, after `weightedLists` (the
`np.multiply(weights[i], top_fi_ave_norm_list[i])` results) and `weights`. -/
def weightFI (ave_metric_list : List ℚ) (top_fi_ave_norm_list : List (List ℚ)) :
    List (List ℚ) × List ℚ × List ℚ :=
  let ave := clampLoop ave_metric_list (List.range ave_metric_list.length)
  let weights := weightsOf ave
  let weightedLists := (List.range top_fi_ave_norm_list.length).map fun i =>
    (top_fi_ave_norm_list.getD i []).map fun x => weights.getD i 0 * x
  (weightedLists, weights, ave)

/-- Outcome of one pairwise comparison row: either the sentinel `['NA', 1]`
recorded without calling the statistical test, or an invocation of the test on
the two sample lists (which scipy routine runs — `stats.wilcoxon` or
`stats.mannwhitneyu` — is irrelevant to the row-generation logic and is left
abstract in the payload). -/
inductive TestReport where
  | sentinel
  | invoked (set1 set2 : List ℚ)
deriving DecidableEq

/-- Source lines 344-350 (and identically 375-381): build
`combined = set1 + set2`; when every element of `combined` equals its first
element the sentinel `['NA', 1]` is recorded, otherwise the statistical test is
invoked on the two sets.  Python's lazy `all(x == combined[0] for x in
combined)` is vacuously true on an empty generator, matching `List.all`. -/
def pairReport (set1 set2 : List ℚ) : TestReport :=
  if (set1 ++ set2).all (fun x => decide (x = (set1 ++ set2).headD 0)) then
    TestReport.sentinel
  else TestReport.invoked set1 set2

/-- Source lines 337-356 (and identically 368-387): the doubly nested loop
over `algorithms` with the `done` bookkeeping list, producing one comparison
row per pair that passes the `not [a1,a2] in done and not [a2,a1] in done and
a1 != a2` filter.  `samples` models the `metric_dict[...][metric]` lookup for
the one metric under consideration. -/
def pairStep (samples : String → List ℚ) (a1 : String)
    (st : List (String × String × TestReport) × List (String × String))
    (a2 : String) :
    List (String × String × TestReport) × List (String × String) :=
  if ¬(a1, a2) ∈ st.2 ∧ ¬(a2, a1) ∈ st.2 ∧ a1 ≠ a2 then
    (st.1 ++ [(a1, a2, pairReport (samples a1) (samples a2))], st.2 ++ [(a1, a2)])
  else st

/-- The state (`rows`, `done`) threaded through both loops; `pairStep` is one
inner-loop iteration for the pair `(a1, a2)` and `pairRows` the full nested
iteration starting from empty `rows` and `done` lists. -/
def pairRows (algorithms : List String) (samples : String → List ℚ) :
    List (String × String × TestReport) :=
  (algorithms.foldl
    (fun st a1 => algorithms.foldl (pairStep samples a1) st)
    ([], [])).1

/-- Source lines 335-360: `wilcoxonRank` restricted to one metric flagged
significant by Kruskal-Wallis; the rows it writes out. -/
def wilcoxonRows (algorithms : List String) (samples : String → List ℚ) :
    List (String × String × TestReport) :=
  pairRows algorithms samples

/-- Source lines 366-391: `mannWhitneyU` restricted to one metric flagged
significant by Kruskal-Wallis; the rows it writes out.  The loop and sentinel
logic are verbatim those of `wilcoxonRank`; only the scipy routine of the
invoked branch differs, which `TestReport.invoked` abstracts. -/
def mannWhitneyURows (algorithms : List String) (samples : String → List ℚ) :
    List (String × String × TestReport) :=
  pairRows algorithms samples

/-- The unordered pairs of distinct entries of a duplicate-free list, each
exactly once, first component earlier in the list: the order in which the
nested loops of `wilcoxonRank` / `mannWhitneyU` emit their rows. -/
def orderedPairs : List String → List (String × String)
  | [] => []
  | a :: rest => (rest.map fun b => (a, b)) ++ orderedPairs rest

/-! ### Helper lemmas -/

lemma sum_map_div {α : Type} (l : List α) (f : α → ℚ) (c : ℚ) :
    (l.map fun x => f x / c).sum = (l.map f).sum / c := by
  induction l with
  | nil => simp
  | cons a t ih => simp [ih, add_div]

lemma self_le_foldl_max : ∀ (t : List ℚ) (h : ℚ), h ≤ t.foldl max h := by
  intro t
  induction t with
  | nil => intro h; simp
  | cons b t' ih =>
    intro h
    calc h ≤ max h b := le_max_left _ _
    _ ≤ t'.foldl max (max h b) := ih _

lemma mem_le_foldl_max : ∀ (t : List ℚ) (h x : ℚ), x ∈ t → x ≤ t.foldl max h := by
  intro t
  induction t with
  | nil => intro h x hx; simp at hx
  | cons b t' ih =>
    intro h x hx
    rcases List.mem_cons.mp hx with rfl | hx'
    · calc x ≤ max h x := le_max_right _ _
      _ ≤ t'.foldl max (max h x) := self_le_foldl_max _ _
    · exact ih _ _ hx'

lemma le_pyMax (l : List ℚ) (x : ℚ) (hx : x ∈ l) : x ≤ pyMax l := by
  cases l with
  | nil => simp at hx
  | cons h t =>
    rcases List.mem_cons.mp hx with rfl | hx'
    · exact self_le_foldl_max _ _
    · exact mem_le_foldl_max _ _ _ hx'

lemma foldl_max_mem : ∀ (t : List ℚ) (h : ℚ), t.foldl max h = h ∨ t.foldl max h ∈ t := by
  intro t
  induction t with
  | nil => intro h; left; rfl
  | cons b t' ih =>
    intro h
    rcases ih (max h b) with heq | hmem
    · rw [List.foldl_cons, heq]
      rcases max_choice h b with h1 | h1
      · left; exact h1
      · right; rw [h1]; exact List.mem_cons_self _ _
    · right
      exact List.mem_cons_of_mem _ hmem

lemma pyMax_mem (l : List ℚ) (hl : l ≠ []) : pyMax l ∈ l := by
  cases l with
  | nil => exact absurd rfl hl
  | cons h t =>
    rcases foldl_max_mem t h with heq | hmem
    · rw [pyMax, heq]; exact List.mem_cons_self _ _
    · exact List.mem_cons_of_mem _ hmem

lemma foldl_max_le : ∀ (t : List ℚ) (h c : ℚ), h ≤ c → (∀ x ∈ t, x ≤ c) →
    t.foldl max h ≤ c := by
  intro t
  induction t with
  | nil => intro h c hh _; exact hh
  | cons b t' ih =>
    intro h c hh hall
    exact ih _ _ (max_le hh (hall b (List.mem_cons_self _ _)))
      fun x hx => hall x (List.mem_cons_of_mem _ hx)

lemma pyMax_le (l : List ℚ) (c : ℚ) (hl : l ≠ []) (hall : ∀ x ∈ l, x ≤ c) :
    pyMax l ≤ c := by
  cases l with
  | nil => exact absurd rfl hl
  | cons h t =>
    exact foldl_max_le t h c (hall h (List.mem_cons_self _ _))
      fun x hx => hall x (List.mem_cons_of_mem _ hx)

/-! ### C2: aggregate average precision -/

/-- C2, counterexample: on the confusion matrix `[[1,2],[3,4]]` the code's
`agg_avg_prec` (every diagonal entry divided by the one shared value
`num_labeled`, the sum of the matrix's first column) yields `5/8`, while the
claim's formula (each diagonal entry divided by its own class's labeled total,
the row sum) yields `19/42`.  The two disagree, so the claim as stated is
false of the code. -/
theorem agg_avg_prec_claim_counterexample :
    agg_avg_prec [[1, 2], [3, 4]] = 5 / 8
    ∧ claim_agg_avg_prec [[1, 2], [3, 4]] = 19 / 42
    ∧ agg_avg_prec [[1, 2], [3, 4]] ≠ claim_agg_avg_prec [[1, 2], [3, 4]] := by
  have h1 : agg_avg_prec [[1, 2], [3, 4]] = 5 / 8 := by
    norm_num [agg_avg_prec, num_labeled, List.range_succ]
  have h2 : claim_agg_avg_prec [[1, 2], [3, 4]] = 19 / 42 := by
    norm_num [claim_agg_avg_prec, List.range_succ]
  exact ⟨h1, h2, by rw [h1, h2]; norm_num⟩

/-- C2, amended: the derived aggregate average precision equals the diagonal
sum divided by `num_labeled` — the sum of the confusion matrix's first column,
a single constant shared by all classes — and then by the number of classes;
no per-class divisor is involved. -/
theorem agg_avg_prec_amended (conf : List (List ℚ)) :
    agg_avg_prec conf = diagSum conf / num_labeled conf / (conf.length : ℚ) := by
  unfold agg_avg_prec diagSum
  rw [sum_map_div]

/-! ### C5: Kruskal-Wallis fallback -/

/-- C5: with three algorithms whose metric samples are identical across all
folds, `stats.kruskal` raises, the `except` branch stores the first
algorithm's raw sample list as the statistic, and the very next line
`str(round(result[0], 6))` raises `TypeError` because a list cannot be
rounded.  The per-metric row computation therefore fails instead of recording
the non-significant sentinel row the claim describes. -/
theorem kruskalRow_crashes_on_identical_samples :
    kruskalRow [[1/2, 1/2, 1/2], [1/2, 1/2, 1/2], [1/2, 1/2, 1/2]] (1/20)
      = Except.error "TypeError: type list doesn't define __round__ method" := by
  norm_num [kruskalRow, kruskalCall, pyRound6]

/-! ### C7: normalization -/

/-- C7: the normalization transform clamps non-positive entries to `0` and
divides positive entries by the vector's maximum, so every output entry lies
in `[0,1]`; whenever at least one raw entry is positive the output's maximum
is exactly `1`; and normalizing a second time leaves the vector unchanged. -/
theorem normalizeFI_range_max_idempotent (v : List ℚ) :
    (∀ x ∈ normalizeFI v, 0 ≤ x ∧ x ≤ 1)
    ∧ ((∃ x ∈ v, 0 < x) → pyMax (normalizeFI v) = 1)
    ∧ normalizeFI (normalizeFI v) = normalizeFI v := by
  have hbound : ∀ x ∈ normalizeFI v, 0 ≤ x ∧ x ≤ 1 := by
    intro x hx
    rcases List.mem_map.mp hx with ⟨y, hy, rfl⟩
    by_cases hy0 : y ≤ 0
    · simp [hy0]
    · push_neg at hy0
      have hM : 0 < pyMax v := lt_of_lt_of_le hy0 (le_pyMax v y hy)
      rw [if_neg (not_le.mpr hy0)]
      exact ⟨div_nonneg (le_of_lt hy0) (le_of_lt hM),
        (div_le_one hM).mpr (le_pyMax v y hy)⟩
  have hmax : (∃ x ∈ v, 0 < x) → pyMax (normalizeFI v) = 1 := by
    rintro ⟨y, hy, hy0⟩
    have hvne : v ≠ [] := by rintro rfl; simp at hy
    have hM : 0 < pyMax v := lt_of_lt_of_le hy0 (le_pyMax v y hy)
    have h1 : (1 : ℚ) ∈ normalizeFI v := by
      have hMmem : pyMax v ∈ v := pyMax_mem v hvne
      have : (if pyMax v ≤ 0 then (0 : ℚ) else pyMax v / pyMax v) = 1 := by
        rw [if_neg (not_le.mpr hM), div_self (ne_of_gt hM)]
      exact this ▸ List.mem_map_of_mem _ hMmem
    have hne : normalizeFI v ≠ [] := by
      rintro habs; rw [habs] at h1; simp at h1
    exact le_antisymm (pyMax_le _ 1 hne fun x hx => (hbound x hx).2) (le_pyMax _ 1 h1)
  refine ⟨hbound, hmax, ?_⟩
  show (normalizeFI v).map (fun x => if x ≤ 0 then 0 else x / pyMax (normalizeFI v))
    = normalizeFI v
  conv_rhs => rw [← List.map_id (normalizeFI v)]
  refine List.map_congr_left fun x hx => ?_
  by_cases hpos : ∃ y ∈ v, 0 < y
  · rcases hbound x hx with ⟨hx0, _⟩
    by_cases hx0' : x ≤ 0
    · have : x = 0 := le_antisymm hx0' hx0
      simp [this]
    · rw [if_neg hx0', hmax hpos, div_one, id]
  · push_neg at hpos
    rcases List.mem_map.mp hx with ⟨y, hy, h⟩
    have hx0 : x = 0 := by rw [← h, if_pos (hpos y hy)]
    simp [hx0]

/-- C7, witness: the concrete vector `[1/2, -1, 2]` has a positive entry; its
normalization is `[1/4, 0, 1]`, all entries in `[0,1]` with maximum exactly
`1`, and renormalizing it changes nothing. -/
theorem normalizeFI_range_max_idempotent_witness :
    pyMax (normalizeFI [1/2, -1, 2]) = 1
    ∧ normalizeFI (normalizeFI [1/2, -1, 2]) = normalizeFI [1/2, -1, 2]
    ∧ normalizeFI [1/2, -1, 2] = [1/4, 0, 1] := by
  refine ⟨(normalizeFI_range_max_idempotent [1/2, -1, 2]).2.1 ⟨2, by norm_num, by norm_num⟩,
    (normalizeFI_range_max_idempotent [1/2, -1, 2]).2.2, by norm_num [normalizeFI, pyMax]⟩

/-! ### C8: fractionation -/

lemma sum_eq_zero_iff_of_nonneg (v : List ℚ) (hnn : ∀ x ∈ v, 0 ≤ x) :
    v.sum = 0 ↔ ∀ x ∈ v, x = 0 := by
  induction v with
  | nil => simp
  | cons a t ih =>
    have ha : 0 ≤ a := hnn a (List.mem_cons_self _ _)
    have hts : 0 ≤ t.sum := List.sum_nonneg fun y hy => hnn y (List.mem_cons_of_mem _ hy)
    have ih' := ih fun y hy => hnn y (List.mem_cons_of_mem _ hy)
    constructor
    · intro hs
      rw [List.sum_cons] at hs
      have ha0 : a = 0 := le_antisymm (by linarith) ha
      have hts0 : t.sum = 0 := by linarith
      intro x hx
      rcases List.mem_cons.mp hx with rfl | hx'
      · exact ha0
      · exact ih'.mp hts0 x hx'
    · intro hall
      exact List.sum_eq_zero hall

/-- C8: for any algorithm's non-negative vector in the list handed to
`fracFI`, fractionation divides each entry by the vector's own sum, so the
output sums to exactly `1` whenever the vector is not all-zero (equivalently,
for a non-negative vector, whenever its sum is non-zero), and is the all-zero
vector when the sum is `0`. -/
theorem fracFI_unit_sum (vs : List (List ℚ)) (v : List ℚ) (hv : v ∈ vs)
    (hnn : ∀ x ∈ v, 0 ≤ x) :
    fracVec v ∈ fracFI vs
    ∧ (v.sum = 0 ↔ ∀ x ∈ v, x = 0)
    ∧ (v.sum ≠ 0 → (fracVec v).sum = 1)
    ∧ (v.sum = 0 → fracVec v = List.replicate v.length 0) := by
  refine ⟨List.mem_map_of_mem _ hv, sum_eq_zero_iff_of_nonneg v hnn, ?_, ?_⟩
  · intro hs
    unfold fracVec
    rw [show (v.map fun x => if v.sum = 0 then 0 else x / v.sum)
          = v.map fun x => x / v.sum from List.map_congr_left fun x _ => if_neg hs]
    have h := sum_map_div v (fun x => x) v.sum
    simp only [List.map_id'] at h
    rw [h, div_self hs]
  · intro hs
    unfold fracVec
    simp [hs, List.map_const']

/-- C8, witness: the non-negative vector `[1/2, 1/2, 0]` is not all-zero; its
fractionated form sums to exactly `1`. -/
theorem fracFI_unit_sum_witness :
    fracVec [1/2, 1/2, 0] ∈ fracFI [[1/2, 1/2, 0]]
    ∧ (fracVec [1/2, 1/2, 0]).sum = 1 := by
  have h := fracFI_unit_sum [[1/2, 1/2, 0]] [1/2, 1/2, 0] (by simp)
    (by intro x hx; simp at hx; rcases hx with rfl | rfl | rfl <;> norm_num)
  exact ⟨h.1, h.2.2.1 (by norm_num)⟩

/-! ### C4: selection with a small non-zero union -/

/-- C4, counterexample: with two algorithms whose FI averages are `[1, 0]` and
`[0, 1]` over the original features `[f1, f2]`, the per-algorithm non-zero
lists are `[f1]` and `[f2]` and the union is rebuilt by
`list(set([f1]) | set([f2]))`, whose enumeration order is unspecified;
`enumRev` realises the admissible order `[f2, f1]`.  `selectForViz` (union
size `2` at most `top_results = 10`) returns that list unchanged, so the
result is a permutation of the union but not in the `[f1, f2]`
original-feature order the claim promises. -/
theorem selectForViz_small_union_order_counterexample :
    nonZeroUnion enumRev ["f1", "f2"] [[1, 0], [0, 1]] = ["f2", "f1"]
    ∧ (nonZeroUnion enumRev ["f1", "f2"] [[1, 0], [0, 1]]).Perm ["f1", "f2"]
    ∧ selectForViz 10 (nonZeroUnion enumRev ["f1", "f2"] [[1, 0], [0, 1]])
        (nonZeroUnionIndexes ["f1", "f2"]
          (nonZeroUnion enumRev ["f1", "f2"] [[1, 0], [0, 1]]))
        ["A", "B"] [3/5, 7/10] (fi_ave_norm_list [[1, 0], [0, 1]])
        = ["f2", "f1"]
    ∧ ["f2", "f1"] ≠ ["f1", "f2"] := by
  refine ⟨by decide, by decide, ?_, by decide⟩
  rw [show nonZeroUnion enumRev ["f1", "f2"] [[1, 0], [0, 1]] = ["f2", "f1"] from by decide]
  rw [selectForViz, if_neg (by norm_num)]

/-- C4, amended: whenever the non-zero union has at most `top_results`
members, `selectForViz` returns the union list itself, unchanged in content
and order, for any inputs; and with a single algorithm that list is exactly
the algorithm's non-zero-feature list in original-feature encounter order.
With two or more algorithms the union's order is the unspecified enumeration
order of Python's set union, so the original-feature order of the claim is not
guaranteed. -/
theorem selectForViz_small_union_amended :
    (∀ (top : Nat) (union : List String) (indexes : List Nat)
        (algorithms : List String) (aves : List ℚ) (norms : List (List ℚ)),
        union.length ≤ top →
        selectForViz top union indexes algorithms aves norms = union)
    ∧ ∀ (enum : List String → List String → List String) (allFeatures : List String)
        (v : List ℚ), nonZeroUnion enum allFeatures [v] = algNonZeroList allFeatures v := by
  constructor
  · intro top union indexes algorithms aves norms h
    rw [selectForViz, if_neg (Nat.not_lt.mpr h)]
  · intro enum allFeatures v
    rfl

/-- C4, amended claim witness: a union of size `2` with `top_results = 10` is
returned unchanged, and a single algorithm's union is its encounter-ordered
non-zero list. -/
theorem selectForViz_small_union_amended_witness :
    selectForViz 10 ["f2", "f1"] [1, 0] ["A", "B"] [3/5, 7/10] [[1, 0], [0, 1]]
      = ["f2", "f1"]
    ∧ nonZeroUnion enumRev ["f1", "f2"] [[1, 0]] = algNonZeroList ["f1", "f2"] [1, 0] :=
  ⟨selectForViz_small_union_amended.1 10 ["f2", "f1"] [1, 0] ["A", "B"] [3/5, 7/10]
      [[1, 0], [0, 1]] (by norm_num),
    selectForViz_small_union_amended.2 enumRev ["f1", "f2"] [1, 0]⟩

/-! ### C10: weightFI mutates its metric-list argument -/

lemma getD_set_self (l : List ℚ) (i : Nat) (a : ℚ) :
    (l.set i a).getD i 0 = if i < l.length then a else 0 := by
  rw [List.getD_eq_getElem?_getD, List.getElem?_set]
  by_cases h : i < l.length <;> simp [h]

lemma getD_set_ne (l : List ℚ) {i j : Nat} (h : i ≠ j) (a : ℚ) :
    (l.set i a).getD j 0 = l.getD j 0 := by
  rw [List.getD_eq_getElem?_getD, List.getElem?_set_ne h, ← List.getD_eq_getElem?_getD]

lemma clampLoop_length : ∀ (idxs : List Nat) (acc : List ℚ),
    (clampLoop acc idxs).length = acc.length := by
  intro idxs
  induction idxs with
  | nil => intro acc; rfl
  | cons i is ih =>
    intro acc
    rw [clampLoop, ih]
    split <;> simp [List.length_set]

lemma clampLoop_getD : ∀ (idxs : List Nat) (acc : List ℚ) (k : Nat), idxs.Nodup →
    (clampLoop acc idxs).getD k 0
      = if k ∈ idxs then (if acc.getD k 0 ≤ 1 / 2 then 0 else acc.getD k 0)
        else acc.getD k 0 := by
  intro idxs
  induction idxs with
  | nil => intro acc k _; simp [clampLoop]
  | cons i is ih =>
    intro acc k hnd
    have hni : i ∉ is := (List.nodup_cons.mp hnd).1
    have hnd' : is.Nodup := (List.nodup_cons.mp hnd).2
    rw [clampLoop, ih _ k hnd']
    by_cases hk : k = i
    · subst hk
      rw [if_neg hni, if_pos (List.mem_cons_self k is)]
      by_cases hc : acc.getD k 0 ≤ 1 / 2
      · rw [if_pos hc, if_pos hc, getD_set_self]
        split <;> rfl
      · rw [if_neg hc, if_neg hc]
    · have hacc : (if acc.getD i 0 ≤ 1 / 2 then acc.set i 0 else acc).getD k 0
          = acc.getD k 0 := by
        split
        · exact getD_set_ne acc (fun he => hk he.symm) 0
        · rfl
      rw [hacc]
      simp only [List.mem_cons, hk, false_or]

lemma clampLoop_range_eq_map (l : List ℚ) :
    clampLoop l (List.range l.length) = l.map fun a => if a ≤ 1 / 2 then 0 else a := by
  refine List.ext_getElem (by rw [clampLoop_length, List.length_map]) ?_
  intro n h1 h2
  have hlen : n < l.length := by rwa [clampLoop_length] at h1
  rw [← List.getD_eq_getElem _ 0 h1, ← List.getD_eq_getElem _ 0 h2,
    clampLoop_getD _ _ _ (List.nodup_range _), if_pos (List.mem_range.mpr hlen),
    List.getD_eq_getElem _ 0 h2, List.getElem_map, List.getD_eq_getElem l 0 hlen]

/-- C10: the state-passing model of `weightFI` shows that after every call the
caller's `ave_metric_list` has every entry at most `0.5` replaced by `0` and
every entry above `0.5` left unchanged — the list a later reader observes is
the clamped one, not the original input. -/
theorem weightFI_clamps_ave_metric_list (ave : List ℚ) (tops : List (List ℚ)) :
    (weightFI ave tops).2.2 = ave.map fun a => if a ≤ 1 / 2 then 0 else a :=
  clampLoop_range_eq_map ave

/-! ### C1: per-fold feature reconciliation -/

lemma reconLoop_snd (headers : List String) (fi : List ℚ) :
    ∀ (o : List String) (ave : List ℚ) (j : Nat),
      (reconLoop headers fi ave j o).2
        = o.map fun each =>
            if each ∈ headers then fi.getD (headers.indexOf each) 0 else 0 := by
  intro o
  induction o with
  | nil => intro ave j; rfl
  | cons each rest ih =>
    intro ave j
    by_cases h : each ∈ headers
    · simp [reconLoop, h, ih]
    · simp [reconLoop, h, ih]

lemma reconcileFI_eq_map (original headers : List String) (fi : List ℚ) :
    reconcileFI original headers fi
      = original.map fun each =>
          if each ∈ headers then fi.getD (headers.indexOf each) 0 else 0 :=
  reconLoop_snd headers fi original _ 0

/-- C1: for every fold, the reconciled FI vector is built by walking the
original feature names in order — a name present in the fold's stripped
test-set header contributes the FI value at that name's position in the
header, an absent name contributes `0.0` — and its length always equals the
length of the original feature list, however many features the fold kept. -/
theorem reconcileFI_matches_claim (original rawHeaders : List String)
    (instLab classLab : String) (fi : List ℚ) :
    (reconcileFI original (stripHeaders rawHeaders instLab classLab) fi).length
        = original.length
    ∧ ∀ i, i < original.length →
        (reconcileFI original (stripHeaders rawHeaders instLab classLab) fi).getD i 0
          = if original.getD i "" ∈ stripHeaders rawHeaders instLab classLab then
              fi.getD
                ((stripHeaders rawHeaders instLab classLab).indexOf
                  (original.getD i "")) 0
            else 0 := by
  rw [reconcileFI_eq_map]
  refine ⟨List.length_map _ _, ?_⟩
  intro i hi
  rw [List.getD_eq_getElem _ _ (by simpa using hi), List.getElem_map,
    List.getD_eq_getElem _ _ hi]

/-- C1, witness: with original features `[f1, f2, f3]`, a fold whose test CSV
header is `[id, f1, f3, class]` (so the fold kept only `f1` and `f3`) and
fold-local FI vector `[0.2, 0.4]`, the reconciled vector is `[0.2, 0, 0.4]`:
full length `3`, with slot `1` zero-filled. -/
theorem reconcileFI_matches_claim_witness :
    (reconcileFI ["f1", "f2", "f3"] (stripHeaders ["id", "f1", "f3", "class"] "id" "class")
        [2/10, 4/10]).getD 1 0 = 0
    ∧ (reconcileFI ["f1", "f2", "f3"]
        (stripHeaders ["id", "f1", "f3", "class"] "id" "class") [2/10, 4/10]).length
        = 3 := by
  have h := reconcileFI_matches_claim ["f1", "f2", "f3"] ["id", "f1", "f3", "class"]
    "id" "class" [2/10, 4/10]
  refine ⟨?_, h.1⟩
  rw [h.2 1 (by norm_num)]
  decide

/-! ### C3: FI averages are arithmetic means over folds -/

lemma reconLoop_fst_length (headers : List String) (fi : List ℚ) :
    ∀ (o : List String) (ave : List ℚ) (j : Nat),
      (reconLoop headers fi ave j o).1.length = ave.length := by
  intro o
  induction o with
  | nil => intro ave j; rfl
  | cons each rest ih =>
    intro ave j
    by_cases h : each ∈ headers
    · simp only [reconLoop, if_pos h]
      rw [ih]
      exact List.length_set _ _ _
    · simp only [reconLoop, if_neg h]
      exact ih _ _

lemma reconLoop_fst_getD (headers : List String) (fi : List ℚ) :
    ∀ (o : List String) (ave : List ℚ) (j k : Nat), k < ave.length →
      (reconLoop headers fi ave j o).1.getD k 0
        = ave.getD k 0
          + (if j ≤ k ∧ k - j < o.length then
              (if o.getD (k - j) "" ∈ headers then
                fi.getD (headers.indexOf (o.getD (k - j) "")) 0
              else 0)
            else 0) := by
  intro o
  induction o with
  | nil =>
    intro ave j k _
    rw [if_neg (by simp)]
    simp [reconLoop]
  | cons each rest ih =>
    intro ave j k hk
    by_cases h : each ∈ headers
    · simp only [reconLoop, if_pos h]
      have hk' : k < (ave.set j (ave.getD j 0 + fi.getD (headers.indexOf each) 0)).length := by
        rwa [List.length_set]
      rw [ih _ (j + 1) k hk']
      by_cases hkj : k = j
      · subst hkj
        rw [getD_set_self, if_pos hk, if_neg (by omega : ¬(k + 1 ≤ k ∧ k - (k + 1) < rest.length)),
          if_pos (by constructor <;> simp : k ≤ k ∧ k - k < (each :: rest).length)]
        simp [h]
      · rw [getD_set_ne ave (fun he => hkj he.symm)]
        by_cases hjk : j ≤ k
        · have hj1k : j + 1 ≤ k := by omega
          have hsub : k - j = (k - (j + 1)) + 1 := by omega
          rw [hsub, List.getD_cons_succ]
          have hcond : (j + 1 ≤ k ∧ k - (j + 1) < rest.length)
              ↔ (j ≤ k ∧ (k - (j + 1)) + 1 < (each :: rest).length) := by
            simp only [List.length_cons]
            omega
          rw [if_congr hcond rfl rfl]
        · rw [if_neg (by omega : ¬(j + 1 ≤ k ∧ k - (j + 1) < rest.length)),
            if_neg (by omega : ¬(j ≤ k ∧ k - j < (each :: rest).length))]
    · simp only [reconLoop, if_neg h]
      rw [ih _ (j + 1) k hk]
      by_cases hkj : k = j
      · subst hkj
        rw [if_neg (by omega : ¬(k + 1 ≤ k ∧ k - (k + 1) < rest.length)),
          if_pos (by constructor <;> simp : k ≤ k ∧ k - k < (each :: rest).length)]
        simp [h]
      · by_cases hjk : j ≤ k
        · have hsub : k - j = (k - (j + 1)) + 1 := by omega
          rw [hsub, List.getD_cons_succ]
          have hcond : (j + 1 ≤ k ∧ k - (j + 1) < rest.length)
              ↔ (j ≤ k ∧ (k - (j + 1)) + 1 < (each :: rest).length) := by
            simp only [List.length_cons]
            omega
          rw [if_congr hcond rfl rfl]
        · rw [if_neg (by omega : ¬(j + 1 ≤ k ∧ k - (j + 1) < rest.length)),
            if_neg (by omega : ¬(j ≤ k ∧ k - j < (each :: rest).length))]

/-- One fold's contribution to the accumulator at a valid index equals the
corresponding entry of that fold's reconciled vector. -/
lemma getD_map_str (f : String → ℚ) (l : List String) (k : Nat) (hk : k < l.length) :
    (l.map f).getD k 0 = f (l.getD k "") := by
  rw [List.getD_eq_getElem _ _ (by simpa using hk), List.getElem_map,
    List.getD_eq_getElem _ _ hk]

lemma reconLoop_fst_getD_eq_reconcile (original headers : List String) (fi : List ℚ)
    (ave : List ℚ) (k : Nat) (hk : k < ave.length) (hko : k < original.length) :
    (reconLoop headers fi ave 0 original).1.getD k 0
      = ave.getD k 0 + (reconcileFI original headers fi).getD k 0 := by
  rw [reconLoop_fst_getD headers fi original ave 0 k hk,
    if_pos ⟨Nat.zero_le _, by simpa using hko⟩, reconcileFI_eq_map, Nat.sub_zero,
    getD_map_str _ original k hko]

lemma FI_aveSums_length (original : List String) (instLab classLab : String)
    (folds : List FoldData) :
    (FI_aveSums original instLab classLab folds).length = original.length := by
  unfold FI_aveSums
  generalize hinit : List.replicate original.length (0 : ℚ) = init
  have hlen : init.length = original.length := by rw [← hinit, List.length_replicate]
  clear hinit
  induction folds generalizing init with
  | nil => exact hlen
  | cons f fs ih =>
    rw [List.foldl_cons]
    exact ih _ (by rw [reconLoop_fst_length]; exact hlen)

lemma foldl_reconLoop_getD (original : List String) (instLab classLab : String)
    (k : Nat) (hko : k < original.length) :
    ∀ (folds : List FoldData) (init : List ℚ), init.length = original.length →
      (folds.foldl
        (fun ave f =>
          (reconLoop (stripHeaders f.rawHeaders instLab classLab) f.fi ave 0
            original).1)
        init).getD k 0
        = init.getD k 0 + ((FI_all original instLab classLab folds).map fun r =>
            r.getD k 0).sum := by
  intro folds
  induction folds with
  | nil => intro init _; simp [FI_all]
  | cons f fs ih =>
    intro init hinit
    rw [List.foldl_cons,
      ih _ (by rw [reconLoop_fst_length]; exact hinit),
      reconLoop_fst_getD_eq_reconcile original _ _ init k (by omega) hko]
    simp [FI_all, add_assoc]

/-- C3: for every algorithm, fold count `n ≥ 1` and feature index `i`, the
per-algorithm FI average at `i` equals the arithmetic mean over all `n` folds
of the reconciled full-length FI vectors at `i`. -/
theorem FI_ave_is_mean (original : List String) (instLab classLab : String)
    (folds : List FoldData) (_hn : 1 ≤ folds.length) (i : Nat)
    (hi : i < original.length) :
    (FI_ave original instLab classLab folds).getD i 0
      = ((FI_all original instLab classLab folds).map fun r => r.getD i 0).sum /
          (folds.length : ℚ) := by
  have hilen : i < (FI_aveSums original instLab classLab folds).length := by
    rwa [FI_aveSums_length]
  unfold FI_ave
  rw [List.getD_eq_getElem _ _ (by simpa using hilen), List.getElem_map,
    ← List.getD_eq_getElem _ _ hilen]
  unfold FI_aveSums
  rw [foldl_reconLoop_getD original instLab classLab i hi folds _
    (List.length_replicate _ _)]
  simp

/-- C3, witness: the spec's end-to-end scenario — original features
`[f1, f2, f3]`, three folds keeping `[f1, f3]`, `[f1, f2, f3]` and `[f1, f2]`
with fold-local FI vectors `[0.2, 0.4]`, `[0.1, 0, 0.5]` and `[0.3, 0.2]` —
gives the average `1/15` (≈ 0.0667) at index `1`, the mean of the reconciled
entries `0`, `0` and `0.2`. -/
theorem FI_ave_is_mean_witness :
    (FI_ave ["f1", "f2", "f3"] "id" "class"
        [⟨["id", "f1", "f3", "class"], [2/10, 4/10]⟩,
         ⟨["id", "f1", "f2", "f3", "class"], [1/10, 0, 5/10]⟩,
         ⟨["id", "f1", "f2", "class"], [3/10, 2/10]⟩]).getD 1 0
      = ((FI_all ["f1", "f2", "f3"] "id" "class"
          [⟨["id", "f1", "f3", "class"], [2/10, 4/10]⟩,
           ⟨["id", "f1", "f2", "f3", "class"], [1/10, 0, 5/10]⟩,
           ⟨["id", "f1", "f2", "class"], [3/10, 2/10]⟩]).map fun r =>
            r.getD 1 0).sum / 3
    ∧ (FI_ave ["f1", "f2", "f3"] "id" "class"
        [⟨["id", "f1", "f3", "class"], [2/10, 4/10]⟩,
         ⟨["id", "f1", "f2", "f3", "class"], [1/10, 0, 5/10]⟩,
         ⟨["id", "f1", "f2", "class"], [3/10, 2/10]⟩]).getD 1 0 = 1 / 15 := by
  have h := FI_ave_is_mean ["f1", "f2", "f3"] "id" "class"
    [⟨["id", "f1", "f3", "class"], [2/10, 4/10]⟩,
     ⟨["id", "f1", "f2", "f3", "class"], [1/10, 0, 5/10]⟩,
     ⟨["id", "f1", "f2", "class"], [3/10, 2/10]⟩] (by norm_num) 1 (by norm_num)
  have hA : (FI_ave ["f1", "f2", "f3"] "id" "class"
      [⟨["id", "f1", "f3", "class"], [2/10, 4/10]⟩,
       ⟨["id", "f1", "f2", "f3", "class"], [1/10, 0, 5/10]⟩,
       ⟨["id", "f1", "f2", "class"], [3/10, 2/10]⟩]).getD 1 0
      = ((FI_all ["f1", "f2", "f3"] "id" "class"
          [⟨["id", "f1", "f3", "class"], [2/10, 4/10]⟩,
           ⟨["id", "f1", "f2", "f3", "class"], [1/10, 0, 5/10]⟩,
           ⟨["id", "f1", "f2", "class"], [3/10, 2/10]⟩]).map fun r =>
            r.getD 1 0).sum / 3 := by
    rw [h]
    norm_num
  refine ⟨hA, ?_⟩
  rw [hA]
  simp +decide [FI_all, reconcileFI, reconLoop, stripHeaders]
  norm_num

/-! ### C6: top-feature selection by performance-weighted score -/

lemma algScore_eq (norms : List (List ℚ)) (aves : List ℚ) (fIdx j : Nat) :
    algScore norms aves fIdx j
      = (norms.getD j []).getD fIdx 0 *
          (if aves.getD j 0 ≤ 1 / 2 then 0 else (aves.getD j 0 - 1 / 2) / (1 / 2)) := by
  unfold algScore
  show (norms.getD j []).getD fIdx 0 *
      (if ¬(if aves.getD j 0 ≤ 1 / 2 then (0 : ℚ) else aves.getD j 0) = 0 then
        ((if aves.getD j 0 ≤ 1 / 2 then (0 : ℚ) else aves.getD j 0) - 1 / 2) / (1 / 2)
      else (if aves.getD j 0 ≤ 1 / 2 then (0 : ℚ) else aves.getD j 0)) = _
  split_ifs with h1 h2 h3
  · rfl
  · exact absurd rfl h2
  · exact absurd (by rw [h3]; norm_num) h1
  · rfl

lemma hasKey_append (d e : List (String × ℚ)) (k : String) :
    hasKey (d ++ e) k = (hasKey d k || hasKey e k) := by
  induction d with
  | nil => simp [hasKey]
  | cons p d ih =>
    by_cases h : p.1 = k
    · simp [hasKey, h]
    · simp [hasKey, h, ih]

lemma map_update_of_not_hasKey (d : List (String × ℚ)) (k : String) (x : ℚ)
    (hd : hasKey d k = false) :
    (d.map fun p => if p.1 = k then (p.1, p.2 + x) else p) = d := by
  induction d with
  | nil => rfl
  | cons p d ih =>
    rw [hasKey] at hd
    by_cases h : p.1 = k
    · rw [if_pos h] at hd
      exact absurd hd (by simp)
    · rw [if_neg h] at hd
      simp [h, ih hd]

lemma dictAdd_fresh (d : List (String × ℚ)) (k : String) (v : ℚ)
    (hd : hasKey d k = false) : dictAdd d k v = d ++ [(k, v)] := by
  unfold dictAdd
  rw [hd]
  simp

lemma dictAdd_append_last (d : List (String × ℚ)) (k : String) (v x : ℚ)
    (hd : hasKey d k = false) :
    dictAdd (d ++ [(k, v)]) k x = d ++ [(k, v + x)] := by
  unfold dictAdd
  rw [hasKey_append, hd]
  have h1 : hasKey [(k, v)] k = true := by simp [hasKey]
  rw [h1]
  simp only [Bool.false_or, if_true]
  rw [List.map_append, map_update_of_not_hasKey d k x hd]
  simp [hasKey]

lemma innerFold_fresh (k : String) (f : Nat → ℚ) :
    ∀ (n : Nat) (d : List (String × ℚ)), 0 < n → hasKey d k = false →
      (List.range n).foldl (fun d' j => dictAdd d' k (f j)) d
        = d ++ [(k, ((List.range n).map f).sum)] := by
  intro n
  induction n with
  | zero => intro d h _; exact absurd h (lt_irrefl 0)
  | succ n ih =>
    intro d _ hd
    by_cases hn : n = 0
    · subst hn
      simp [List.range_succ, dictAdd_fresh _ _ _ hd]
    · rw [List.range_succ, List.foldl_append, ih d (Nat.pos_of_ne_zero hn) hd]
      simp only [List.foldl_cons, List.foldl_nil]
      rw [dictAdd_append_last d k _ _ hd]
      simp

/-- The total score the inner algorithm loop accumulates for the union feature
at running position `i`. -/
def innerScoreSum (indexes : List Nat) (nAlgs : Nat) (norms : List (List ℚ))
    (aves : List ℚ) (i : Nat) : ℚ :=
  ((List.range nAlgs).map fun j => algScore norms aves (indexes.getD i 0) j).sum

lemma scoreStep_eq (indexes : List Nat) (nAlgs : Nat) (norms : List (List ℚ))
    (aves : List ℚ) (d : List (String × ℚ)) (i : Nat) (u : String)
    (hn : 0 < nAlgs) (hd : hasKey d u = false) :
    scoreStep indexes nAlgs norms aves (d, i) u
      = (d ++ [(u, innerScoreSum indexes nAlgs norms aves i)], i + 1) := by
  unfold scoreStep
  rw [innerFold_fresh u _ nAlgs d hn hd]
  rfl

lemma scoreSumDict_foldl (indexes : List Nat) (nAlgs : Nat) (norms : List (List ℚ))
    (aves : List ℚ) (hn : 0 < nAlgs) :
    ∀ (us : List String) (d : List (String × ℚ)) (i : Nat),
      us.Nodup → (∀ u ∈ us, hasKey d u = false) →
      (us.foldl (scoreStep indexes nAlgs norms aves) (d, i)).1
        = d ++ (List.enumFrom i us).map
            fun p => (p.2, innerScoreSum indexes nAlgs norms aves p.1) := by
  intro us
  induction us with
  | nil => intro d i _ _; simp
  | cons u us ih =>
    intro d i hnd hfresh
    rw [List.foldl_cons,
      scoreStep_eq indexes nAlgs norms aves d i u hn (hfresh u (List.mem_cons_self _ _))]
    have hfresh' : ∀ u' ∈ us, hasKey (d ++ [(u, innerScoreSum indexes nAlgs norms aves i)]) u'
        = false := by
      intro u' hu'
      rw [hasKey_append, hfresh u' (List.mem_cons_of_mem _ hu')]
      have hne : u ≠ u' := by
        rintro rfl
        exact (List.nodup_cons.mp hnd).1 hu'
      simp [hasKey, hne]
    rw [ih _ (i + 1) (List.nodup_cons.mp hnd).2 hfresh', List.enumFrom_cons]
    simp

lemma scoreSumDict_eq (union : List String) (indexes : List Nat) (nAlgs : Nat)
    (norms : List (List ℚ)) (aves : List ℚ) (hnd : union.Nodup) (hn : 0 < nAlgs) :
    scoreSumDict union indexes nAlgs norms aves
      = (List.enumFrom 0 union).map
          fun p => (p.2, innerScoreSum indexes nAlgs norms aves p.1) := by
  unfold scoreSumDict
  rw [scoreSumDict_foldl indexes nAlgs norms aves hn union [] 0 hnd
    (by intro u _; rfl)]
  rfl

lemma lookupD_enumFrom_map (g : Nat → ℚ) :
    ∀ (us : List String) (i : Nat) (u : String), us.Nodup → u ∈ us →
      lookupD ((List.enumFrom i us).map fun p => (p.2, g p.1)) u
        = g (i + List.indexOf u us) := by
  intro us
  induction us with
  | nil => intro i u _ hu; simp at hu
  | cons v us ih =>
    intro i u hnd hu
    rw [List.enumFrom_cons]
    simp only [List.map_cons, lookupD]
    by_cases h : v = u
    · subst h
      rw [if_pos rfl, List.indexOf_cons_self, Nat.add_zero]
    · rw [if_neg h]
      have hu' : u ∈ us := by
        rcases List.mem_cons.mp hu with rfl | h'
        · exact absurd rfl h
        · exact h'
      rw [ih (i + 1) u (List.nodup_cons.mp hnd).2 hu', List.indexOf_cons_ne us h]
      congr 1
      omega

lemma mem_insertDesc (key : String → ℚ) (a x : String) :
    ∀ l : List String, x ∈ insertDesc key a l ↔ x = a ∨ x ∈ l := by
  intro l
  induction l with
  | nil => simp [insertDesc]
  | cons b bs ih =>
    rw [insertDesc]
    by_cases h : key b < key a
    · rw [if_pos h]
      simp [List.mem_cons]
    · rw [if_neg h]
      simp only [List.mem_cons, ih]
      tauto

lemma insertDesc_congr (k1 k2 : String → ℚ) (a : String) (l : List String)
    (ha : k1 a = k2 a) (hl : ∀ x ∈ l, k1 x = k2 x) :
    insertDesc k1 a l = insertDesc k2 a l := by
  induction l with
  | nil => rfl
  | cons b bs ih =>
    rw [insertDesc, insertDesc, ha, hl b (List.mem_cons_self _ _)]
    by_cases h : k2 b < k2 a
    · rw [if_pos h, if_pos h]
    · rw [if_neg h, if_neg h, ih fun x hx => hl x (List.mem_cons_of_mem _ hx)]

lemma foldl_insertDesc_congr (k1 k2 : String → ℚ) :
    ∀ (l acc : List String), (∀ x ∈ l, k1 x = k2 x) → (∀ x ∈ acc, k1 x = k2 x) →
      l.foldl (fun acc a => insertDesc k1 a acc) acc
        = l.foldl (fun acc a => insertDesc k2 a acc) acc := by
  intro l
  induction l with
  | nil => intro acc _ _; rfl
  | cons a as ih =>
    intro acc hl hacc
    rw [List.foldl_cons, List.foldl_cons,
      insertDesc_congr k1 k2 a acc (hl a (List.mem_cons_self _ _)) hacc]
    refine ih _ (fun x hx => hl x (List.mem_cons_of_mem _ hx)) fun x hx => ?_
    rcases (mem_insertDesc k2 a x acc).mp hx with rfl | hx'
    · exact hl x (List.mem_cons_self _ _)
    · exact hacc x hx'

lemma pySortedDesc_congr (k1 k2 : String → ℚ) (l : List String)
    (hl : ∀ x ∈ l, k1 x = k2 x) : pySortedDesc k1 l = pySortedDesc k2 l :=
  foldl_insertDesc_congr k1 k2 l [] hl (by intro x hx; simp at hx)

/-- C6: when the non-zero union is larger than `top_results`, the selection
returns the first `top_results` features of the union sorted by descending
performance-weighted score — the sum over all algorithms of the normalized FI
value times the weight `w = 0` if the algorithm's mean primary metric is at
most `0.5`, else `(mean − 0.5) / 0.5` — with ties broken by first-seen union
order (Python's sort is stable and dict iteration follows insertion order). -/
theorem selectForViz_top_ranking (top_results : Nat) (union : List String)
    (indexes : List Nat) (algorithms : List String) (aves : List ℚ)
    (norms : List (List ℚ)) (hnd : union.Nodup) (halg : 0 < algorithms.length)
    (hbig : top_results < union.length) :
    selectForViz top_results union indexes algorithms aves norms
      = (pySortedDesc (claimScore union indexes norms aves algorithms.length)
          union).take top_results := by
  unfold selectForViz
  rw [if_pos hbig]
  show (pySortedDesc
      (fun x => lookupD (scoreSumDict union indexes algorithms.length norms aves) x)
      ((scoreSumDict union indexes algorithms.length norms aves).map Prod.fst)).take
      top_results = _
  have hkeys : (scoreSumDict union indexes algorithms.length norms aves).map Prod.fst
      = union := by
    rw [scoreSumDict_eq union indexes algorithms.length norms aves hnd halg,
      List.map_map]
    have hcomp : (Prod.fst ∘ fun p : ℕ × String =>
        (p.2, innerScoreSum indexes algorithms.length norms aves p.1)) = Prod.snd := by
      funext p
      rfl
    rw [hcomp, List.enumFrom_map_snd]
  rw [hkeys]
  congr 1
  apply pySortedDesc_congr
  intro x hx
  rw [scoreSumDict_eq union indexes algorithms.length norms aves hnd halg,
    lookupD_enumFrom_map _ union 0 x hnd hx]
  simp only [Nat.zero_add]
  unfold innerScoreSum claimScore
  refine congrArg List.sum (List.map_congr_left fun j _ => ?_)
  rw [algScore_eq]

/-- C6, witness: with union `[a, b, c]` (indexes `[0, 1, 2]`), one algorithm
of mean balanced accuracy `0.9` and normalized FI row `[0.1, 0.8, 0.3]`, and
`top_results = 2`, the selection equals the claim's stable descending ranking
and concretely returns `[b, c]`. -/
theorem selectForViz_top_ranking_witness :
    selectForViz 2 ["a", "b", "c"] [0, 1, 2] ["A"] [9/10] [[1/10, 8/10, 3/10]]
      = (pySortedDesc
          (claimScore ["a", "b", "c"] [0, 1, 2] [[1/10, 8/10, 3/10]] [9/10] 1)
          ["a", "b", "c"]).take 2
    ∧ selectForViz 2 ["a", "b", "c"] [0, 1, 2] ["A"] [9/10] [[1/10, 8/10, 3/10]]
      = ["b", "c"] := by
  refine ⟨selectForViz_top_ranking 2 ["a", "b", "c"] [0, 1, 2] ["A"] [9/10]
    [[1/10, 8/10, 3/10]] (by decide) (by decide) (by decide), ?_⟩
  simp +decide [selectForViz, scoreSumDict, scoreStep, dictAdd, hasKey, algScore,
    List.range_succ, pySortedDesc, insertDesc, lookupD]
  norm_num [insertDesc, lookupD]
  simp +decide
  norm_num

/-! ### C9: pairwise comparison rows and the degenerate-sample sentinel -/

lemma orderedPairs_mem : ∀ (l : List String) (p : String × String),
    p ∈ orderedPairs l → p.1 ∈ l ∧ p.2 ∈ l := by
  intro l
  induction l with
  | nil => intro p hp; simp [orderedPairs] at hp
  | cons x l ih =>
    intro p hp
    rw [orderedPairs] at hp
    rcases List.mem_append.mp hp with h | h
    · rcases List.mem_map.mp h with ⟨b, hb, rfl⟩
      exact ⟨List.mem_cons_self _ _, List.mem_cons_of_mem _ hb⟩
    · exact ⟨List.mem_cons_of_mem _ (ih p h).1, List.mem_cons_of_mem _ (ih p h).2⟩

lemma orderedPairs_total : ∀ (l : List String) (a b : String), a ∈ l → b ∈ l →
    a ≠ b → (a, b) ∈ orderedPairs l ∨ (b, a) ∈ orderedPairs l := by
  intro l
  induction l with
  | nil => intro a b ha _ _; simp at ha
  | cons x l ih =>
    intro a b ha hb hne
    rw [orderedPairs]
    rcases List.mem_cons.mp ha with rfl | ha'
    · have hb' : b ∈ l := by
        rcases List.mem_cons.mp hb with rfl | h
        · exact absurd rfl hne
        · exact h
      exact Or.inl (List.mem_append_left _ (List.mem_map_of_mem _ hb'))
    · rcases List.mem_cons.mp hb with rfl | hb'
      · exact Or.inr (List.mem_append_left _ (List.mem_map_of_mem _ ha'))
      · rcases ih a b ha' hb' hne with h | h
        · exact Or.inl (List.mem_append_right _ h)
        · exact Or.inr (List.mem_append_right _ h)

lemma orderedPairs_antisymm : ∀ (l : List String), l.Nodup → ∀ (a b : String),
    ¬((a, b) ∈ orderedPairs l ∧ (b, a) ∈ orderedPairs l) := by
  intro l
  induction l with
  | nil => intro _ a b h; simp [orderedPairs] at h
  | cons x l ih =>
    intro hnd a b h
    have hx : x ∉ l := (List.nodup_cons.mp hnd).1
    rw [orderedPairs] at h
    rcases List.mem_append.mp h.1 with h1 | h1 <;>
      rcases List.mem_append.mp h.2 with h2 | h2
    · rcases List.mem_map.mp h1 with ⟨c, _, he1⟩
      rcases List.mem_map.mp h2 with ⟨c', hc', he2⟩
      simp only [Prod.mk.injEq] at he1 he2
      exact hx (he1.1 ▸ he2.2 ▸ hc')
    · rcases List.mem_map.mp h1 with ⟨c, _, he1⟩
      simp only [Prod.mk.injEq] at he1
      exact hx (he1.1 ▸ (orderedPairs_mem l _ h2).2)
    · rcases List.mem_map.mp h2 with ⟨c, _, he2⟩
      simp only [Prod.mk.injEq] at he2
      exact hx (he2.1 ▸ (orderedPairs_mem l _ h1).2)
    · exact ih (List.nodup_cons.mp hnd).2 a b ⟨h1, h2⟩

lemma orderedPairs_nodup : ∀ (l : List String), l.Nodup → (orderedPairs l).Nodup := by
  intro l
  induction l with
  | nil => intro _; simp [orderedPairs]
  | cons x l ih =>
    intro hnd
    rw [orderedPairs, List.nodup_append]
    refine ⟨List.Nodup.map ?_ (List.nodup_cons.mp hnd).2,
      ih (List.nodup_cons.mp hnd).2, ?_⟩
    · intro b1 b2 he
      simpa using congrArg Prod.snd he
    · intro p hp hp'
      rcases List.mem_map.mp hp with ⟨b, _, rfl⟩
      exact (List.nodup_cons.mp hnd).1 (orderedPairs_mem l _ hp').1

/-- The pairs already recorded in the `done` list after the outer loop has
processed the prefix `P` of the algorithm list, `rest` being the remaining
suffix. -/
def opPart : List String → List String → List (String × String)
  | [], _ => []
  | a :: P, rest => ((P ++ rest).map fun b => (a, b)) ++ opPart P rest

lemma opPart_nil : ∀ P : List String, opPart P [] = orderedPairs P := by
  intro P
  induction P with
  | nil => rfl
  | cons a P ih => rw [opPart, orderedPairs, List.append_nil, ih]

lemma opPart_fst_mem : ∀ (P rest : List String) (p : String × String),
    p ∈ opPart P rest → p.1 ∈ P := by
  intro P
  induction P with
  | nil => intro rest p hp; simp [opPart] at hp
  | cons a P ih =>
    intro rest p hp
    rw [opPart] at hp
    rcases List.mem_append.mp hp with h | h
    · rcases List.mem_map.mp h with ⟨b, _, rfl⟩
      exact List.mem_cons_self _ _
    · exact List.mem_cons_of_mem _ (ih rest p h)

lemma opPart_mem_snd : ∀ (P rest : List String) (b c : String), c ∈ rest →
    ((b, c) ∈ opPart P rest ↔ b ∈ P) := by
  intro P
  induction P with
  | nil => intro rest b c _; simp [opPart]
  | cons a P ih =>
    intro rest b c hc
    rw [opPart, List.mem_append, List.mem_cons]
    constructor
    · rintro (h | h)
      · rcases List.mem_map.mp h with ⟨c', _, he⟩
        simp only [Prod.mk.injEq] at he
        exact Or.inl he.1.symm
      · exact Or.inr ((ih rest b c hc).mp h)
    · rintro (rfl | h)
      · exact Or.inl (List.mem_map_of_mem _ (List.mem_append_right _ hc))
      · exact Or.inr ((ih rest b c hc).mpr h)

lemma opPart_append_singleton : ∀ (P rest : List String) (a : String),
    opPart (P ++ [a]) rest = opPart P (a :: rest) ++ rest.map fun b => (a, b) := by
  intro P
  induction P with
  | nil =>
    intro rest a
    simp [opPart]
  | cons p P ih =>
    intro rest a
    rw [List.cons_append, opPart, opPart, ih rest a]
    simp [List.append_assoc]

lemma pairStep_skip (samples : String → List ℚ) (a1 : String) :
    ∀ (L : List String)
      (st : List (String × String × TestReport) × List (String × String)),
      (∀ b ∈ L, (b, a1) ∈ st.2 ∨ b = a1) →
      L.foldl (pairStep samples a1) st = st := by
  intro L
  induction L with
  | nil => intro st _; rfl
  | cons b L ih =>
    intro st hL
    rw [List.foldl_cons]
    have hstep : pairStep samples a1 st b = st := by
      unfold pairStep
      rcases hL b (List.mem_cons_self _ _) with h | h
      · rw [if_neg]
        rintro ⟨_, h2, _⟩
        exact h2 h
      · rw [if_neg]
        rintro ⟨_, _, h3⟩
        exact h3 h.symm
    rw [hstep]
    exact ih st fun c hc => hL c (List.mem_cons_of_mem _ hc)

lemma pairStep_add (samples : String → List ℚ) (a1 : String) :
    ∀ (L : List String) (R : List (String × String × TestReport))
      (D : List (String × String)),
      L.Nodup →
      (∀ b ∈ L, (b, a1) ∉ D ∧ (a1, b) ∉ D ∧ b ≠ a1) →
      L.foldl (pairStep samples a1) (R, D)
        = (R ++ L.map fun b => (a1, b, pairReport (samples a1) (samples b)),
           D ++ L.map fun b => (a1, b)) := by
  intro L
  induction L with
  | nil => intro R D _ _; simp
  | cons b L ih =>
    intro R D hnd hL
    have hb := hL b (List.mem_cons_self _ _)
    have hbL : b ∉ L := (List.nodup_cons.mp hnd).1
    rw [List.foldl_cons]
    have hstep : pairStep samples a1 (R, D) b
        = (R ++ [(a1, b, pairReport (samples a1) (samples b))], D ++ [(a1, b)]) := by
      unfold pairStep
      rw [if_pos ⟨hb.2.1, hb.1, Ne.symm hb.2.2⟩]
    rw [hstep,
      ih (R ++ [(a1, b, pairReport (samples a1) (samples b))]) (D ++ [(a1, b)])
        (List.nodup_cons.mp hnd).2 ?_]
    · simp [List.append_assoc]
    · intro c hc
      have hc' := hL c (List.mem_cons_of_mem _ hc)
      refine ⟨?_, ?_, hc'.2.2⟩
      · rw [List.mem_append]
        rintro (h | h)
        · exact hc'.1 h
        · simp only [List.mem_singleton, Prod.mk.injEq] at h
          exact hc'.2.2 h.1
      · rw [List.mem_append]
        rintro (h | h)
        · exact hc'.2.1 h
        · simp only [List.mem_singleton, Prod.mk.injEq] at h
          exact hbL (h.2 ▸ hc)

lemma pairInner (samples : String → List ℚ) (P rest : List String) (a1 : String)
    (hnd : (P ++ a1 :: rest).Nodup)
    (R : List (String × String × TestReport)) (D : List (String × String))
    (hD1 : ∀ b, (b, a1) ∈ D ↔ b ∈ P) (hD2 : ∀ b, (a1, b) ∉ D) :
    (P ++ a1 :: rest).foldl (pairStep samples a1) (R, D)
      = (R ++ rest.map fun b => (a1, b, pairReport (samples a1) (samples b)),
         D ++ rest.map fun b => (a1, b)) := by
  rw [List.foldl_append,
    pairStep_skip samples a1 P (R, D) (fun b hb => Or.inl ((hD1 b).mpr hb)),
    List.foldl_cons]
  have hself : pairStep samples a1 (R, D) a1 = (R, D) := by
    unfold pairStep
    rw [if_neg]
    rintro ⟨_, _, h3⟩
    exact h3 rfl
  rw [hself]
  have htail : (a1 :: rest).Nodup := List.Nodup.of_append_right hnd
  refine pairStep_add samples a1 rest R D (List.nodup_cons.mp htail).2
    fun b hb => ⟨?_, hD2 b, ?_⟩
  · intro h
    exact List.disjoint_of_nodup_append hnd ((hD1 b).mp h)
      (List.mem_cons_of_mem _ hb)
  · rintro rfl
    exact (List.nodup_cons.mp htail).1 hb

lemma pairOuter (samples : String → List ℚ) (algs : List String) (hnd : algs.Nodup) :
    ∀ (rest P : List String), algs = P ++ rest →
      rest.foldl (fun st a1 => algs.foldl (pairStep samples a1) st)
        ((opPart P rest).map
          (fun p => (p.1, p.2, pairReport (samples p.1) (samples p.2))),
         opPart P rest)
        = ((orderedPairs algs).map
            (fun p => (p.1, p.2, pairReport (samples p.1) (samples p.2))),
           orderedPairs algs) := by
  intro rest
  induction rest with
  | nil =>
    intro P hPe
    rw [List.append_nil] at hPe
    subst hPe
    rw [opPart_nil]
    rfl
  | cons a1 rest ih =>
    intro P hPe
    rw [List.foldl_cons]
    have hndsplit : (P ++ a1 :: rest).Nodup := hPe ▸ hnd
    have hD1 : ∀ b, (b, a1) ∈ opPart P (a1 :: rest) ↔ b ∈ P :=
      fun b => opPart_mem_snd P (a1 :: rest) b a1 (List.mem_cons_self _ _)
    have hD2 : ∀ b, (a1, b) ∉ opPart P (a1 :: rest) := by
      intro b h
      exact List.disjoint_of_nodup_append hndsplit
        (opPart_fst_mem P (a1 :: rest) _ h) (List.mem_cons_self _ _)
    have hinner : algs.foldl (pairStep samples a1)
        ((opPart P (a1 :: rest)).map
          (fun p => (p.1, p.2, pairReport (samples p.1) (samples p.2))),
         opPart P (a1 :: rest))
        = ((opPart (P ++ [a1]) rest).map
            (fun p => (p.1, p.2, pairReport (samples p.1) (samples p.2))),
           opPart (P ++ [a1]) rest) := by
      rw [hPe, pairInner samples P rest a1 hndsplit _ _ hD1 hD2,
        opPart_append_singleton P rest a1, List.map_append, List.map_map]
      rfl
    rw [hinner]
    exact ih (P ++ [a1]) (by rw [hPe, List.append_assoc, List.singleton_append])

lemma pairRows_eq (algs : List String) (samples : String → List ℚ)
    (hnd : algs.Nodup) :
    pairRows algs samples
      = (orderedPairs algs).map
          fun p => (p.1, p.2, pairReport (samples p.1) (samples p.2)) := by
  unfold pairRows
  have h := pairOuter samples algs hnd algs [] rfl
  exact congrArg Prod.fst h

/-- C9, counterexample: two algorithms whose per-fold samples are elementwise
identical but not constant — both `[0.3, 0.7]`.  The claim says the test is
not invoked and the sentinel is recorded; the code's guard
`all(x == combined[0] for x in combined)` is false here (`0.7 ≠ 0.3`), so
`stats.wilcoxon` IS invoked and the recorded row is not the sentinel.  The
sentinel fires only when both samples are constant with one shared value. -/
theorem pairRows_identical_samples_counterexample :
    wilcoxonRows ["A", "B"] (fun _ => [3/10, 7/10])
      = [("A", "B", TestReport.invoked [3/10, 7/10] [3/10, 7/10])]
    ∧ TestReport.invoked [3/10, 7/10] [3/10, 7/10] ≠ TestReport.sentinel := by
  constructor
  · simp +decide [wilcoxonRows, pairRows, pairStep, pairReport]
    norm_num
  · intro h
    exact TestReport.noConfusion h

/-- C9, amended: for a metric flagged significant, both `wilcoxonRank` and
`mannWhitneyU` emit exactly one row per unordered pair of distinct algorithms
(first component earlier in the algorithm list, no pair repeated, both
orientations never present); the sentinel (statistic `'NA'`, p-value `1`) is
recorded without invoking the test exactly when every value of both compared
samples equals their first value — i.e. both samples are constant with one
shared value — and not merely when the two samples are elementwise
identical. -/
theorem pairRows_amended (algorithms : List String) (samples : String → List ℚ)
    (hnd : algorithms.Nodup) :
    wilcoxonRows algorithms samples
      = (orderedPairs algorithms).map
          (fun p => (p.1, p.2, pairReport (samples p.1) (samples p.2)))
    ∧ mannWhitneyURows algorithms samples
      = (orderedPairs algorithms).map
          (fun p => (p.1, p.2, pairReport (samples p.1) (samples p.2)))
    ∧ (orderedPairs algorithms).Nodup
    ∧ (∀ a b, a ∈ algorithms → b ∈ algorithms → a ≠ b →
        ((a, b) ∈ orderedPairs algorithms ∨ (b, a) ∈ orderedPairs algorithms)
        ∧ ¬((a, b) ∈ orderedPairs algorithms ∧ (b, a) ∈ orderedPairs algorithms))
    ∧ ∀ s1 s2, pairReport s1 s2 = TestReport.sentinel
        ↔ ((s1 ++ s2).all fun x => decide (x = (s1 ++ s2).headD 0)) = true := by
  refine ⟨pairRows_eq algorithms samples hnd, pairRows_eq algorithms samples hnd,
    orderedPairs_nodup algorithms hnd, ?_, ?_⟩
  · intro a b ha hb hne
    exact ⟨orderedPairs_total algorithms a b ha hb hne,
      orderedPairs_antisymm algorithms hnd a b⟩
  · intro s1 s2
    unfold pairReport
    by_cases h : ((s1 ++ s2).all fun x => decide (x = (s1 ++ s2).headD 0)) = true
    · simp [h]
    · simp [h]

/-- C9, amended claim witness: two algorithms with the concrete identical
non-constant samples `[0.3, 0.7]` — the rows are exactly one per unordered
pair, in pair order `(A, B)`, and the sentinel characterization holds. -/
theorem pairRows_amended_witness :
    wilcoxonRows ["A", "B"] (fun _ => [3/10, 7/10])
      = (orderedPairs ["A", "B"]).map
          (fun p => (p.1, p.2,
            pairReport ((fun _ : String => [(3 : ℚ)/10, 7/10]) p.1)
              ((fun _ : String => [(3 : ℚ)/10, 7/10]) p.2)))
    ∧ (orderedPairs ["A", "B"]).Nodup := by
  refine ⟨(pairRows_amended ["A", "B"] (fun _ => [3/10, 7/10]) (by decide)).1,
    (pairRows_amended ["A", "B"] (fun _ => [3/10, 7/10]) (by decide)).2.2.1⟩

end StatsJobMC
